import Mathlib

/-!
Verification of the power/sample-size engine of `app.py`.

The embedding models the floating-point computation by exact real
arithmetic.  `math.erf` is modelled by the error function
`erf x = 2/√π · ∫ t in 0..x, exp (-t²)`; the bodies of the two bisection
loops in `z_from_alpha` and `z_from_power` are textually identical in the
source, so they are embedded through one shared loop `bisectAux` and one
shared result builder `quantileSolve`.  Python raises `ZeroDivisionError`
when a float is divided by zero; the `*_run` variants of the two
sample-size functions make that behaviour explicit with an `Except`
result, while the plain variants give the value computed on the
non-raising path.
-/

open MeasureTheory intervalIntegral Finset

noncomputable section

/-- The error function computed by `math.erf`. -/
def erf (x : ℝ) : ℝ := 2 / Real.sqrt Real.pi * ∫ t in (0:ℝ)..x, Real.exp (-t ^ 2)

/-- The expression `0.5 * (1.0 + erf(mid / sqrt(2.0)))` evaluated inside both
bisection loops (app.py lines 72 and 86): the standard normal CDF. -/
def cdfStd (z : ℝ) : ℝ := 0.5 * (1 + erf (z / Real.sqrt 2))

/-- `k` iterations of the loop body shared by `z_from_alpha` and
`z_from_power` (app.py lines 70-76 and 84-90):
`mid = (lo+hi)/2; if cdf < target: lo = mid else: hi = mid`. -/
def bisectAux (target : ℝ) : ℕ → ℝ → ℝ → ℝ × ℝ
  | 0, lo, hi => (lo, hi)
  | k + 1, lo, hi =>
    if cdfStd ((lo + hi) / 2) < target then bisectAux target k ((lo + hi) / 2) hi
    else bisectAux target k lo ((lo + hi) / 2)

/-- The common shape of `z_from_alpha` and `z_from_power`: one hundred
bisection steps on the bracket `[-10, 10]` followed by `(lo + hi) / 2`. -/
def quantileSolve (target : ℝ) : ℝ :=
  ((bisectAux target 100 (-10) 10).1 + (bisectAux target 100 (-10) 10).2) / 2

/-- `z_from_alpha` (app.py lines 61-77): bisection with target `1 - alpha/2`. -/
def z_from_alpha (alpha : ℝ) : ℝ := quantileSolve (1 - alpha / 2)

/-- `z_from_power` (app.py lines 79-91): bisection with target `power`. -/
def z_from_power (power : ℝ) : ℝ := quantileSolve power

/-- `n_per_group_independent` (app.py lines 93-98):
`int(math.ceil(2 * sigma_total**2 * (z_a + z_b)**2 / delta**2))`. -/
def n_per_group_independent (alpha power sigma_total delta : ℝ) : ℤ :=
  ⌈2 * sigma_total ^ 2 * (z_from_alpha alpha + z_from_power power) ^ 2 / delta ^ 2⌉

/-- `n_paired` (app.py lines 100-105):
`int(math.ceil(sigma_diff**2 * (z_a + z_b)**2 / delta**2))`. -/
def n_paired (alpha power sigma_diff delta : ℝ) : ℤ :=
  ⌈sigma_diff ^ 2 * (z_from_alpha alpha + z_from_power power) ^ 2 / delta ^ 2⌉

/-- `percent_to_fraction` (app.py lines 107-108). -/
def percent_to_fraction (p : ℝ) : ℝ := p / 100

/-- The independent branch of the single-point calculation (app.py lines
239-242): `sigma_total = sqrt(sigma_bio**2 + sigma_inter**2)` fed into
`n_per_group_independent`. -/
def requiredN_independent (alpha power sigma_bio sigma_inter delta : ℝ) : ℤ :=
  n_per_group_independent alpha power (Real.sqrt (sigma_bio ^ 2 + sigma_inter ^ 2)) delta

/-- Run-time error conditions relevant to the engine: the `InvalidArgument`
condition named by the specification, and Python's `ZeroDivisionError`. -/
inductive PyError
  | invalidArgument
  | zeroDivisionError
  deriving DecidableEq

/-- `n_per_group_independent` with Python's run-time semantics explicit:
`delta**2` evaluates to `0.0` when `delta = 0` and the subsequent float
division raises `ZeroDivisionError`; no other step of the body can raise. -/
def n_per_group_independent_run (alpha power sigma_total delta : ℝ) : Except PyError ℤ :=
  if delta ^ 2 = 0 then .error .zeroDivisionError
  else .ok ⌈2 * sigma_total ^ 2 * (z_from_alpha alpha + z_from_power power) ^ 2 / delta ^ 2⌉

/-- `n_paired` with Python's run-time semantics explicit. -/
def n_paired_run (alpha power sigma_diff delta : ℝ) : Except PyError ℤ :=
  if delta ^ 2 = 0 then .error .zeroDivisionError
  else .ok ⌈sigma_diff ^ 2 * (z_from_alpha alpha + z_from_power power) ^ 2 / delta ^ 2⌉

/-- The sweep grid `np.arange(1, 30.0 + 0.001, 0.5)` (app.py line 269):
the 59 values `1.0, 1.5, ..., 30.0`. -/
def sweepDeltas : List ℝ := (List.range 59).map fun i : ℕ => 1 + (i : ℝ) * 0.5

/-- The swept `y` list of the independent branch (app.py lines 270-272). -/
def curve_independent (alpha power sigma_bio sigma_inter : ℝ) : List ℤ :=
  sweepDeltas.map fun v =>
    n_per_group_independent alpha power (Real.sqrt (sigma_bio ^ 2 + sigma_inter ^ 2))
      (percent_to_fraction v)

/-- The swept `y` list of the paired branch (app.py lines 274-276). -/
def curve_paired (alpha power sigma_inter : ℝ) : List ℤ :=
  sweepDeltas.map fun v => n_paired alpha power sigma_inter (percent_to_fraction v)

/-- The headline single-point number of the independent branch (app.py
lines 235-242), taking the slider value in percent. -/
def headline_independent (alpha power sigma_bio sigma_inter delta_percent : ℝ) : ℤ :=
  n_per_group_independent alpha power (Real.sqrt (sigma_bio ^ 2 + sigma_inter ^ 2))
    (percent_to_fraction delta_percent)

/-- The headline single-point number of the paired branch (app.py lines
235-237 and 250-253). -/
def headline_paired (alpha power sigma_inter delta_percent : ℝ) : ℤ :=
  n_paired alpha power sigma_inter (percent_to_fraction delta_percent)

end

lemma sweepDeltas_length : sweepDeltas.length = 59 := by
  rw [sweepDeltas, List.length_map, List.length_range]

/-- C10: the independent-groups result equals the paired result with the
standard deviation scaled by `√2`, because `2·σ² = (√2·σ)²` and the two
functions share the z-scores, the division and the ceiling. -/
theorem independent_eq_paired_sqrt_two (alpha power sigma delta : ℝ) :
    n_per_group_independent alpha power sigma delta =
      n_paired alpha power (Real.sqrt 2 * sigma) delta := by
  unfold n_per_group_independent n_paired
  congr 1
  rw [mul_pow, Real.sq_sqrt (by norm_num : (0:ℝ) ≤ 2)]

/-- C6 (amended): with `delta = 0` both sample-size functions fail by
raising `ZeroDivisionError` from the float division; no infinity or NaN is
returned to the caller. -/
theorem delta_zero_raises :
    (∀ alpha power sigma : ℝ,
      n_per_group_independent_run alpha power sigma 0 =
        Except.error PyError.zeroDivisionError) ∧
    (∀ alpha power sigma : ℝ,
      n_paired_run alpha power sigma 0 = Except.error PyError.zeroDivisionError) := by
  constructor <;> intro alpha power sigma <;>
    simp [n_per_group_independent_run, n_paired_run]

/-- C6 (counterexample): at `delta = 0` the error raised is
`ZeroDivisionError`, not the specified `InvalidArgument` condition — the
code performs no argument validation. -/
theorem delta_zero_not_invalid_argument :
    n_per_group_independent_run 0.05 0.8 1 0 ≠ Except.error PyError.invalidArgument := by
  simp [n_per_group_independent_run]

/-- C7 (counterexample): with all variability components zero (a valid
input per the claim) the code returns `0`, not a value clamped to `1`:
there is no clamping step in `n_per_group_independent` or `n_paired`. -/
theorem zero_variability_gives_zero :
    requiredN_independent 0.05 0.8 0 0 10 = 0 ∧ n_paired 0.05 0.8 0 5 = 0 := by
  constructor
  · unfold requiredN_independent n_per_group_independent
    norm_num
  · unfold n_paired
    norm_num

/-- C7 (amended): the returned sample size is `⌈raw⌉` with no clamping: it
is nonnegative for every input with positive `delta`, and it equals `0`
(not `1`) whenever every variability component is zero. -/
theorem sample_size_nonneg :
    (∀ alpha power sb si delta : ℝ, 0 < delta →
      0 ≤ requiredN_independent alpha power sb si delta) ∧
    (∀ alpha power sd delta : ℝ, 0 < delta → 0 ≤ n_paired alpha power sd delta) ∧
    (∀ alpha power delta : ℝ,
      requiredN_independent alpha power 0 0 delta = 0 ∧ n_paired alpha power 0 delta = 0) := by
  refine ⟨?_, ?_, ?_⟩
  · intro alpha power sb si delta _
    unfold requiredN_independent n_per_group_independent
    exact Int.ceil_nonneg (by positivity)
  · intro alpha power sd delta _
    unfold n_paired
    exact Int.ceil_nonneg (by positivity)
  · intro alpha power delta
    constructor
    · unfold requiredN_independent n_per_group_independent
      norm_num
    · unfold n_paired
      norm_num

/-- C7 (witness for the amended statement). -/
theorem sample_size_nonneg_witness :
    0 ≤ requiredN_independent 0.05 0.8 11.6 2.4 10 ∧ 0 ≤ n_paired 0.05 0.8 5 5 :=
  ⟨sample_size_nonneg.1 0.05 0.8 11.6 2.4 10 (by norm_num),
   sample_size_nonneg.2.1 0.05 0.8 5 5 (by norm_num)⟩

/-- C5: each point of the swept curve equals the single-point calculation
at the same slider value, for both designs: both paths call the same
function with the same converted delta. -/
theorem curve_consistency :
    (∀ alpha power sb si : ℝ, ∀ i : ℕ, ∀ h : i < sweepDeltas.length,
      (curve_independent alpha power sb si).get
          ⟨i, by simpa [curve_independent] using h⟩ =
        headline_independent alpha power sb si (sweepDeltas.get ⟨i, h⟩)) ∧
    (∀ alpha power si : ℝ, ∀ i : ℕ, ∀ h : i < sweepDeltas.length,
      (curve_paired alpha power si).get ⟨i, by simpa [curve_paired] using h⟩ =
        headline_paired alpha power si (sweepDeltas.get ⟨i, h⟩)) := by
  constructor
  · intro alpha power sb si i h
    simp [curve_independent, headline_independent]
  · intro alpha power si i h
    simp [curve_paired, headline_paired]

/-- C5 (witness): the first grid point of the curve agrees with the direct
calculation there. -/
theorem curve_consistency_witness :
    (curve_independent 0.05 0.8 11.6 2.4).get
        ⟨0, by simp [curve_independent, sweepDeltas_length]⟩ =
      headline_independent 0.05 0.8 11.6 2.4
        (sweepDeltas.get ⟨0, by simp [sweepDeltas_length]⟩) ∧
    (curve_paired 0.05 0.8 2.4).get ⟨0, by simp [curve_paired, sweepDeltas_length]⟩ =
      headline_paired 0.05 0.8 2.4 (sweepDeltas.get ⟨0, by simp [sweepDeltas_length]⟩) :=
  ⟨curve_consistency.1 0.05 0.8 11.6 2.4 0 (by simp [sweepDeltas_length]),
   curve_consistency.2 0.05 0.8 2.4 0 (by simp [sweepDeltas_length])⟩

noncomputable section

/-- The integral `∫ t in 0..z` of the unnormalised normal density
`exp (-t²/2)`; `cdfStd` is an affine function of it. -/
def gaussInt (z : ℝ) : ℝ := ∫ t in (0:ℝ)..z, Real.exp (-t ^ 2 / 2)

end

lemma continuous_gaussDens : Continuous fun t : ℝ => Real.exp (-t ^ 2 / 2) :=
  Real.continuous_exp.comp ((continuous_pow 2).neg.div_const 2)

lemma gaussDens_pos (t : ℝ) : 0 < Real.exp (-t ^ 2 / 2) := Real.exp_pos _

lemma gaussDens_le_one (t : ℝ) : Real.exp (-t ^ 2 / 2) ≤ 1 := by
  have h := sq_nonneg t
  exact Real.exp_le_one_iff.mpr (by linarith)

lemma gaussDens_intervalIntegrable (a b : ℝ) :
    IntervalIntegrable (fun t : ℝ => Real.exp (-t ^ 2 / 2)) volume a b :=
  continuous_gaussDens.intervalIntegrable a b

lemma gaussInt_add_integral (a b : ℝ) :
    gaussInt a + (∫ t in a..b, Real.exp (-t ^ 2 / 2)) = gaussInt b :=
  integral_add_adjacent_intervals (gaussDens_intervalIntegrable 0 a)
    (gaussDens_intervalIntegrable a b)

lemma gaussInt_strictMono : StrictMono gaussInt := by
  intro a b hab
  have hpos := intervalIntegral_pos_of_pos (gaussDens_intervalIntegrable a b)
    gaussDens_pos hab
  have hadd := gaussInt_add_integral a b
  linarith

lemma gaussInt_mono : Monotone gaussInt := gaussInt_strictMono.monotone

lemma gaussInt_sub_le {a b : ℝ} (hab : a ≤ b) : gaussInt b - gaussInt a ≤ b - a := by
  have hadd := gaussInt_add_integral a b
  have hle : (∫ t in a..b, Real.exp (-t ^ 2 / 2)) ≤ ∫ _t in a..b, (1:ℝ) :=
    integral_mono_on hab (gaussDens_intervalIntegrable a b) intervalIntegrable_const
      fun x _ => gaussDens_le_one x
  rw [intervalIntegral.integral_const, smul_eq_mul, mul_one] at hle
  linarith

lemma gaussDens_integrable : Integrable fun t : ℝ => Real.exp (-t ^ 2 / 2) := by
  have h := integrable_exp_neg_mul_sq (b := (2⁻¹ : ℝ)) (by norm_num)
  have heq : (fun t : ℝ => Real.exp (-t ^ 2 / 2)) = fun t : ℝ => Real.exp (-2⁻¹ * t ^ 2) := by
    funext t; congr 1; ring
  rw [heq]
  exact h

lemma integral_gaussDens_Ioi :
    (∫ t in Set.Ioi (0:ℝ), Real.exp (-t ^ 2 / 2)) = Real.sqrt (2 * Real.pi) / 2 := by
  have h := integral_gaussian_Ioi (2⁻¹ : ℝ)
  have heq : (fun t : ℝ => Real.exp (-t ^ 2 / 2)) = fun t : ℝ => Real.exp (-2⁻¹ * t ^ 2) := by
    funext t; congr 1; ring
  rw [heq, h]
  congr 2
  ring

lemma gaussInt_le_of_pos {y : ℝ} (hy : 0 < y) :
    gaussInt y ≤ Real.sqrt (2 * Real.pi) / 2 := by
  have hsplit : (∫ t in Set.Ioi (0:ℝ), Real.exp (-t ^ 2 / 2)) =
      (∫ t in Set.Ioc 0 y, Real.exp (-t ^ 2 / 2)) +
        ∫ t in Set.Ioi y, Real.exp (-t ^ 2 / 2) := by
    rw [← Set.Ioc_union_Ioi_eq_Ioi hy.le]
    exact setIntegral_union (Set.Ioc_disjoint_Ioi le_rfl) measurableSet_Ioi
      gaussDens_integrable.integrableOn gaussDens_integrable.integrableOn
  have htail : 0 ≤ ∫ t in Set.Ioi y, Real.exp (-t ^ 2 / 2) :=
    setIntegral_nonneg measurableSet_Ioi fun t _ => (gaussDens_pos t).le
  have hval : gaussInt y = ∫ t in Set.Ioc 0 y, Real.exp (-t ^ 2 / 2) :=
    integral_of_le hy.le
  rw [hval, ← integral_gaussDens_Ioi, hsplit]
  linarith

lemma gaussInt_lt_half_sqrt (z : ℝ) : gaussInt z < Real.sqrt (2 * Real.pi) / 2 := by
  have h1 : z < max z 0 + 1 := by
    have := le_max_left z 0
    linarith
  have h2 : (0:ℝ) < max z 0 + 1 := by
    have := le_max_right z 0
    linarith
  exact lt_of_lt_of_le (gaussInt_strictMono h1) (gaussInt_le_of_pos h2)

lemma gaussInt_neg (z : ℝ) : gaussInt (-z) = -gaussInt z := by
  have hcomp := integral_comp_neg (a := 0) (b := z) fun x : ℝ => Real.exp (-x ^ 2 / 2)
  simp only [neg_sq, neg_zero] at hcomp
  have hsymm : (∫ x in (-z:ℝ)..0, Real.exp (-x ^ 2 / 2)) =
      -∫ x in (0:ℝ)..(-z), Real.exp (-x ^ 2 / 2) := integral_symm 0 (-z)
  unfold gaussInt
  linarith [hcomp, hsymm]

lemma cdfStd_eq (z : ℝ) : cdfStd z = 1 / 2 + gaussInt z / Real.sqrt (2 * Real.pi) := by
  have h2 : Real.sqrt 2 ≠ 0 := by positivity
  have hπ : Real.sqrt Real.pi ≠ 0 := by
    have := Real.pi_pos
    positivity
  have hcomp := integral_comp_div (a := 0) (b := z) (fun t : ℝ => Real.exp (-t ^ 2)) h2
  have hbody : ∀ x : ℝ, Real.exp (-(x / Real.sqrt 2) ^ 2) = Real.exp (-x ^ 2 / 2) := by
    intro x
    rw [div_pow, Real.sq_sqrt (by norm_num : (0:ℝ) ≤ 2), ← neg_div]
  simp only [hbody, zero_div, smul_eq_mul] at hcomp
  have hI : (∫ t in (0:ℝ)..z / Real.sqrt 2, Real.exp (-t ^ 2)) =
      gaussInt z / Real.sqrt 2 := by
    rw [eq_div_iff h2, mul_comm]
    exact hcomp.symm
  unfold cdfStd erf
  rw [hI]
  have hsqrt : Real.sqrt 2 * Real.sqrt Real.pi = Real.sqrt (2 * Real.pi) :=
    (Real.sqrt_mul (by norm_num) _).symm
  rw [← hsqrt]
  field_simp
  ring

lemma sqrt_two_pi_pos : (0:ℝ) < Real.sqrt (2 * Real.pi) :=
  Real.sqrt_pos.mpr (by positivity)

lemma one_le_sqrt_two_pi : (1:ℝ) ≤ Real.sqrt (2 * Real.pi) := by
  rw [show (1:ℝ) = Real.sqrt 1 from Real.sqrt_one.symm]
  exact Real.sqrt_le_sqrt (by nlinarith [Real.pi_gt_three])

lemma cdfStd_mono : Monotone cdfStd := by
  intro a b hab
  rw [cdfStd_eq, cdfStd_eq]
  have h := gaussInt_mono hab
  have hs := sqrt_two_pi_pos
  have hdiv := (div_le_div_right hs).mpr h
  linarith

lemma cdfStd_lt_one (z : ℝ) : cdfStd z < 1 := by
  rw [cdfStd_eq]
  have h := gaussInt_lt_half_sqrt z
  have hs := sqrt_two_pi_pos
  have hlt : gaussInt z / Real.sqrt (2 * Real.pi) < 1 / 2 := by
    rw [div_lt_iff hs]
    linarith
  linarith

lemma cdfStd_neg (z : ℝ) : cdfStd (-z) = 1 - cdfStd z := by
  rw [cdfStd_eq, cdfStd_eq, gaussInt_neg]
  have hs := sqrt_two_pi_pos
  field_simp
  ring

lemma cdfStd_pos (z : ℝ) : 0 < cdfStd z := by
  have h := cdfStd_lt_one (-z)
  rw [cdfStd_neg] at h
  linarith

lemma cdfStd_le_one (z : ℝ) : cdfStd z ≤ 1 := (cdfStd_lt_one z).le

lemma cdfStd_sub_le {a b : ℝ} (hab : a ≤ b) : cdfStd b - cdfStd a ≤ b - a := by
  rw [cdfStd_eq, cdfStd_eq]
  have h1 := gaussInt_sub_le hab
  have hs := sqrt_two_pi_pos
  have h3 : (gaussInt b - gaussInt a) / Real.sqrt (2 * Real.pi) ≤
      (b - a) / Real.sqrt (2 * Real.pi) := (div_le_div_right hs).mpr h1
  have h4 : (b - a) / Real.sqrt (2 * Real.pi) ≤ b - a :=
    div_le_self (by linarith) one_le_sqrt_two_pi
  have h5 := sub_div (gaussInt b) (gaussInt a) (Real.sqrt (2 * Real.pi))
  linarith

noncomputable section

/-- Partial sum (through degree `N`) of the Maclaurin series of `exp (-x)`. -/
def expTaylor (N : ℕ) (x : ℝ) : ℝ :=
  ∑ k ∈ Finset.range (N + 1), (-x) ^ k / (Nat.factorial k)

/-- The series obtained by integrating `expTaylor N (t²/2)` from `0` to `c`:
a closed rational form bounding `gaussInt c` from either side. -/
def gaussSeries (N : ℕ) (c : ℝ) : ℝ :=
  ∑ k ∈ Finset.range (N + 1),
    (-1) ^ k * c ^ (2 * k + 1) / (2 ^ k * (Nat.factorial k) * (2 * k + 1))

end

lemma expTaylor_zero_eq (N : ℕ) : expTaylor N 0 = 1 := by
  unfold expTaylor
  rw [Finset.sum_eq_single 0]
  · norm_num
  · intro k _ hk
    rw [neg_zero, zero_pow hk, zero_div]
  · intro h
    exact absurd (Finset.mem_range.mpr (Nat.succ_pos N)) h

lemma expTaylor_hasDerivAt (N : ℕ) (x : ℝ) :
    HasDerivAt (fun y => expTaylor (N + 1) y) (-expTaylor N x) x := by
  have hterm : ∀ k ∈ Finset.range (N + 2),
      HasDerivAt (fun y : ℝ => (-y) ^ k / (Nat.factorial k))
        ((k : ℝ) * (-x) ^ (k - 1) * (-1) / (Nat.factorial k)) x := by
    intro k _
    exact (((hasDerivAt_id x).neg).pow k).div_const _
  have hsum := HasDerivAt.sum hterm
  have heq : (∑ k ∈ Finset.range (N + 2),
      (k : ℝ) * (-x) ^ (k - 1) * (-1) / (Nat.factorial k)) = -expTaylor N x := by
    rw [Finset.sum_range_succ']
    have h0 : ((0:ℕ) : ℝ) * (-x) ^ (0 - 1) * (-1) / (Nat.factorial 0) = 0 := by norm_num
    rw [h0, add_zero]
    unfold expTaylor
    rw [← Finset.sum_neg_distrib]
    apply Finset.sum_congr rfl
    intro j _
    have hj : ((j:ℝ) + 1) ≠ 0 := by positivity
    have hfj : (Nat.factorial j : ℝ) ≠ 0 :=
      Nat.cast_ne_zero.mpr (Nat.factorial_ne_zero j)
    rw [Nat.add_sub_cancel, Nat.factorial_succ]
    push_cast
    field_simp
    ring
  have hgoal : HasDerivAt (fun y => expTaylor (N + 1) y)
      (∑ k ∈ Finset.range (N + 2), (k : ℝ) * (-x) ^ (k - 1) * (-1) / (Nat.factorial k)) x := by
    unfold expTaylor
    exact hsum
  rw [heq] at hgoal
  exact hgoal

lemma expTaylor_alternating (N : ℕ) : ∀ x : ℝ, 0 ≤ x →
    0 ≤ (-1) ^ N * (expTaylor N x - Real.exp (-x)) := by
  induction N with
  | zero =>
    intro x hx
    have h1 : Real.exp (-x) ≤ 1 := Real.exp_le_one_iff.mpr (by linarith)
    have h2 : expTaylor 0 x = 1 := by
      unfold expTaylor
      norm_num
    rw [h2]
    simp only [pow_zero, one_mul]
    linarith
  | succ N ih =>
    intro x hx
    have hD : ∀ y : ℝ,
        HasDerivAt (fun y => (-1:ℝ) ^ (N + 1) * (expTaylor (N + 1) y - Real.exp (-y)))
          ((-1) ^ N * (expTaylor N y - Real.exp (-y))) y := by
      intro y
      have h1 := expTaylor_hasDerivAt N y
      have h2 : HasDerivAt (fun y : ℝ => Real.exp (-y)) (-Real.exp (-y)) y := by
        have h3 := (Real.hasDerivAt_exp (-y)).comp y ((hasDerivAt_id y).neg)
        simpa using h3
      have h4 := (h1.sub h2).const_mul ((-1:ℝ) ^ (N + 1))
      convert h4 using 1
      rw [pow_succ]
      ring
    have hdiff : Differentiable ℝ
        fun y => (-1:ℝ) ^ (N + 1) * (expTaylor (N + 1) y - Real.exp (-y)) :=
      fun y => (hD y).differentiableAt
    have hmono : MonotoneOn
        (fun y => (-1:ℝ) ^ (N + 1) * (expTaylor (N + 1) y - Real.exp (-y)))
        (Set.Ici 0) := by
      apply monotoneOn_of_deriv_nonneg (convex_Ici 0) hdiff.continuous.continuousOn
        hdiff.differentiableOn
      intro y hy
      rw [(hD y).deriv]
      rw [interior_Ici] at hy
      exact ih y (le_of_lt hy)
    have h0 : (-1:ℝ) ^ (N + 1) * (expTaylor (N + 1) 0 - Real.exp (-0)) = 0 := by
      rw [expTaylor_zero_eq, neg_zero, Real.exp_zero]
      ring
    have hfx : (-1:ℝ) ^ (N + 1) * (expTaylor (N + 1) 0 - Real.exp (-0)) ≤
        (-1:ℝ) ^ (N + 1) * (expTaylor (N + 1) x - Real.exp (-x)) :=
      hmono Set.left_mem_Ici (Set.mem_Ici.mpr hx) hx
    linarith [h0, hfx]

lemma exp_neg_le_expTaylor {N : ℕ} (hN : Even N) {x : ℝ} (hx : 0 ≤ x) :
    Real.exp (-x) ≤ expTaylor N x := by
  have h := expTaylor_alternating N x hx
  rw [hN.neg_one_pow] at h
  linarith

lemma expTaylor_le_exp_neg {N : ℕ} (hN : Odd N) {x : ℝ} (hx : 0 ≤ x) :
    expTaylor N x ≤ Real.exp (-x) := by
  have h := expTaylor_alternating N x hx
  rw [hN.neg_one_pow] at h
  linarith

lemma continuous_expTaylor_comp (N : ℕ) :
    Continuous fun t : ℝ => expTaylor N (t ^ 2 / 2) := by
  unfold expTaylor
  apply continuous_finset_sum
  intro k _
  exact ((((continuous_pow 2).div_const 2).neg).pow k).div_const _

lemma integral_expTaylor_comp (N : ℕ) (c : ℝ) :
    (∫ t in (0:ℝ)..c, expTaylor N (t ^ 2 / 2)) = gaussSeries N c := by
  unfold expTaylor gaussSeries
  rw [intervalIntegral.integral_finset_sum]
  · apply Finset.sum_congr rfl
    intro k _
    have hbody : ∀ t : ℝ, (-(t ^ 2 / 2)) ^ k / (Nat.factorial k : ℝ) =
        ((-1) ^ k / (2 ^ k * (Nat.factorial k : ℝ))) * t ^ (2 * k) := by
      intro t
      rw [neg_pow, div_pow, pow_mul]
      ring
    simp only [hbody]
    rw [intervalIntegral.integral_const_mul, integral_pow]
    have hk : (Nat.factorial k : ℝ) ≠ 0 := Nat.cast_ne_zero.mpr (Nat.factorial_ne_zero k)
    have h2k : ((2:ℝ)) ^ k ≠ 0 := by positivity
    have h2k1 : (2 * (k:ℝ) + 1) ≠ 0 := by positivity
    rw [zero_pow (by omega : 2 * k + 1 ≠ 0)]
    push_cast
    field_simp
  · intro k _
    exact (((((continuous_pow 2).div_const 2).neg).pow k).div_const _).intervalIntegrable 0 c

lemma gaussInt_le_gaussSeries {N : ℕ} (hN : Even N) {c : ℝ} (hc : 0 ≤ c) :
    gaussInt c ≤ gaussSeries N c := by
  rw [← integral_expTaylor_comp N c]
  unfold gaussInt
  apply integral_mono_on hc (gaussDens_intervalIntegrable 0 c)
    ((continuous_expTaylor_comp N).intervalIntegrable 0 c)
  intro t _
  have h := exp_neg_le_expTaylor hN (show (0:ℝ) ≤ t ^ 2 / 2 by positivity)
  rw [← neg_div] at h
  exact h

lemma gaussSeries_le_gaussInt {N : ℕ} (hN : Odd N) {c : ℝ} (hc : 0 ≤ c) :
    gaussSeries N c ≤ gaussInt c := by
  rw [← integral_expTaylor_comp N c]
  unfold gaussInt
  apply integral_mono_on hc ((continuous_expTaylor_comp N).intervalIntegrable 0 c)
    (gaussDens_intervalIntegrable 0 c)
  intro t _
  have h := expTaylor_le_exp_neg hN (show (0:ℝ) ≤ t ^ 2 / 2 by positivity)
  rw [← neg_div] at h
  exact h

lemma cdfStd_lt_of_sq {c p : ℝ} {N : ℕ} (hN : Even N) (hc : 0 ≤ c) (hp : 1/2 < p)
    (h0 : 0 ≤ gaussSeries N c)
    (h : (gaussSeries N c) ^ 2 < (p - 1/2) ^ 2 * 6.283184) : cdfStd c < p := by
  have hle := gaussInt_le_gaussSeries hN hc
  have hπ := Real.pi_gt_d6
  have hS : gaussSeries N c < (p - 1/2) * Real.sqrt (2 * Real.pi) := by
    have h1 : Real.sqrt ((p - 1/2) ^ 2 * (2 * Real.pi)) =
        (p - 1/2) * Real.sqrt (2 * Real.pi) := by
      rw [Real.sqrt_mul (sq_nonneg _), Real.sqrt_sq (by linarith)]
    rw [← h1]
    apply (Real.lt_sqrt h0).mpr
    nlinarith [mul_nonneg (sq_nonneg (p - 1/2))
      (by linarith : (0:ℝ) ≤ 2 * Real.pi - 6.283184)]
  have hs := sqrt_two_pi_pos
  rw [cdfStd_eq]
  have hdiv : gaussInt c / Real.sqrt (2 * Real.pi) < p - 1/2 := by
    rw [div_lt_iff hs]
    calc gaussInt c ≤ gaussSeries N c := hle
      _ < (p - 1/2) * Real.sqrt (2 * Real.pi) := hS
  linarith

lemma le_cdfStd_of_sq {c p : ℝ} {N : ℕ} (hN : Odd N) (hc : 0 ≤ c) (hp : 1/2 ≤ p)
    (h0 : 0 ≤ gaussSeries N c)
    (h : (p - 1/2) ^ 2 * 6.283186 ≤ (gaussSeries N c) ^ 2) : p ≤ cdfStd c := by
  have hge := gaussSeries_le_gaussInt hN hc
  have hπ := Real.pi_lt_d6
  have hS : (p - 1/2) * Real.sqrt (2 * Real.pi) ≤ gaussSeries N c := by
    have h1 : Real.sqrt ((p - 1/2) ^ 2 * (2 * Real.pi)) =
        (p - 1/2) * Real.sqrt (2 * Real.pi) := by
      rw [Real.sqrt_mul (sq_nonneg _), Real.sqrt_sq (by linarith)]
    rw [← h1]
    have h2 : (p - 1/2) ^ 2 * (2 * Real.pi) ≤ (gaussSeries N c) ^ 2 := by
      nlinarith [mul_nonneg (sq_nonneg (p - 1/2))
        (by linarith : (0:ℝ) ≤ 6.283186 - 2 * Real.pi)]
    calc Real.sqrt ((p - 1/2) ^ 2 * (2 * Real.pi)) ≤
        Real.sqrt ((gaussSeries N c) ^ 2) := Real.sqrt_le_sqrt h2
      _ = gaussSeries N c := Real.sqrt_sq h0
  have hs := sqrt_two_pi_pos
  rw [cdfStd_eq]
  have hdiv : p - 1/2 ≤ gaussInt c / Real.sqrt (2 * Real.pi) := by
    rw [le_div_iff hs]
    calc (p - 1/2) * Real.sqrt (2 * Real.pi) ≤ gaussSeries N c := hS
      _ ≤ gaussInt c := hge
  linarith

set_option maxHeartbeats 1000000

lemma phi_lt_1959 : cdfStd 1.959 < 0.975 := by
  have h0 : (0:ℝ) ≤ gaussSeries 10 1.959 := by
    unfold gaussSeries
    norm_num [Finset.sum_range_succ, Nat.factorial]
  exact cdfStd_lt_of_sq (by decide) (by norm_num) (by norm_num) h0 (by
    unfold gaussSeries
    norm_num [Finset.sum_range_succ, Nat.factorial])

lemma phi_ge_197 : (0.975:ℝ) ≤ cdfStd 1.97 := by
  have h0 : (0:ℝ) ≤ gaussSeries 9 1.97 := by
    unfold gaussSeries
    norm_num [Finset.sum_range_succ, Nat.factorial]
  exact le_cdfStd_of_sq (by decide) (by norm_num) (by norm_num) h0 (by
    unfold gaussSeries
    norm_num [Finset.sum_range_succ, Nat.factorial])

lemma phi_lt_0841 : cdfStd 0.841 < 0.8 := by
  have h0 : (0:ℝ) ≤ gaussSeries 6 0.841 := by
    unfold gaussSeries
    norm_num [Finset.sum_range_succ, Nat.factorial]
  exact cdfStd_lt_of_sq (by decide) (by norm_num) (by norm_num) h0 (by
    unfold gaussSeries
    norm_num [Finset.sum_range_succ, Nat.factorial])

lemma phi_ge_085 : (0.8:ℝ) ≤ cdfStd 0.85 := by
  have h0 : (0:ℝ) ≤ gaussSeries 5 0.85 := by
    unfold gaussSeries
    norm_num [Finset.sum_range_succ, Nat.factorial]
  exact le_cdfStd_of_sq (by decide) (by norm_num) (by norm_num) h0 (by
    unfold gaussSeries
    norm_num [Finset.sum_range_succ, Nat.factorial])

lemma gaussInt_tail {y : ℝ} (hy : (2:ℝ) ≤ y) :
    Real.sqrt (2 * Real.pi) / 2 - gaussInt y ≤ Real.exp (-(y ^ 2 / 2)) := by
  have hy0 : (0:ℝ) < y := by linarith
  have hsplit : (∫ t in Set.Ioi (0:ℝ), Real.exp (-t ^ 2 / 2)) =
      (∫ t in Set.Ioc 0 y, Real.exp (-t ^ 2 / 2)) +
        ∫ t in Set.Ioi y, Real.exp (-t ^ 2 / 2) := by
    rw [← Set.Ioc_union_Ioi_eq_Ioi hy0.le]
    exact setIntegral_union (Set.Ioc_disjoint_Ioi le_rfl) measurableSet_Ioi
      gaussDens_integrable.integrableOn gaussDens_integrable.integrableOn
  have hval : gaussInt y = ∫ t in Set.Ioc 0 y, Real.exp (-t ^ 2 / 2) :=
    integral_of_le hy0.le
  have hmaj : IntegrableOn (fun t : ℝ => Real.exp (y - y ^ 2 / 2) * Real.exp (-t))
      (Set.Ioi y) := by
    have h1 : IntegrableOn (fun t : ℝ => Real.exp (-1 * t)) (Set.Ioi y) :=
      exp_neg_integrableOn_Ioi y one_pos
    simp only [neg_one_mul] at h1
    exact h1.const_mul _
  have hmono : (∫ t in Set.Ioi y, Real.exp (-t ^ 2 / 2)) ≤
      ∫ t in Set.Ioi y, Real.exp (y - y ^ 2 / 2) * Real.exp (-t) := by
    apply setIntegral_mono_on gaussDens_integrable.integrableOn hmaj measurableSet_Ioi
    intro t ht
    rw [← Real.exp_add]
    apply Real.exp_le_exp.mpr
    have ht2 : y < t := ht
    nlinarith
  have hvaltail : (∫ t in Set.Ioi y, Real.exp (y - y ^ 2 / 2) * Real.exp (-t)) =
      Real.exp (-(y ^ 2 / 2)) := by
    rw [MeasureTheory.integral_mul_left, integral_exp_neg_Ioi, ← Real.exp_add]
    congr 1
    ring
  rw [← integral_gaussDens_Ioi, hsplit, hval]
  linarith [hmono, hvaltail.le, hvaltail.ge]

lemma sqrt_two_pi_ge : (2.5066:ℝ) ≤ Real.sqrt (2 * Real.pi) := by
  rw [show (2.5066:ℝ) = Real.sqrt (2.5066 ^ 2) from (Real.sqrt_sq (by norm_num)).symm]
  apply Real.sqrt_le_sqrt
  nlinarith [Real.pi_gt_d6]

lemma exp_tail_small : Real.exp (-((5.5:ℝ) ^ 2 / 2)) ≤ 1e-6 * Real.sqrt (2 * Real.pi) := by
  have h1 : ((1145:ℝ) / 1024) ^ (128:ℕ) ≤ Real.exp ((5.5:ℝ) ^ 2 / 2) := by
    have hb : ((1145:ℝ) / 1024) ≤ Real.exp ((5.5:ℝ) ^ 2 / 2 / 128) := by
      have := Real.add_one_le_exp ((5.5:ℝ) ^ 2 / 2 / 128)
      norm_num at this ⊢
      linarith
    calc ((1145:ℝ) / 1024) ^ (128:ℕ) ≤ Real.exp ((5.5:ℝ) ^ 2 / 2 / 128) ^ (128:ℕ) :=
          pow_le_pow_left (by norm_num) hb 128
      _ = Real.exp ((5.5:ℝ) ^ 2 / 2) := by
          rw [← Real.exp_nat_mul]
          norm_num
  have h2 : (1500000:ℝ) ≤ ((1145:ℝ) / 1024) ^ (128:ℕ) := by
    norm_num
  have h3 : (1500000:ℝ) ≤ Real.exp ((5.5:ℝ) ^ 2 / 2) := le_trans h2 h1
  have hexppos : (0:ℝ) < Real.exp ((5.5:ℝ) ^ 2 / 2) := Real.exp_pos _
  rw [Real.exp_neg]
  have h4 : (Real.exp ((5.5:ℝ) ^ 2 / 2))⁻¹ ≤ (1500000:ℝ)⁻¹ :=
    inv_le_inv_of_le (by norm_num) h3
  have h5 : ((1500000:ℝ))⁻¹ ≤ 1e-6 * 2.5066 := by norm_num
  have h6 : (1e-6:ℝ) * 2.5066 ≤ 1e-6 * Real.sqrt (2 * Real.pi) := by
    nlinarith [sqrt_two_pi_ge]
  linarith

lemma cdfStd_ge_tail : (1 - 1e-6 : ℝ) ≤ cdfStd 5.5 := by
  rw [cdfStd_eq]
  have htail := gaussInt_tail (y := 5.5) (by norm_num)
  have hexp := exp_tail_small
  have hs := sqrt_two_pi_pos
  have hG : (1 / 2 - 1e-6) * Real.sqrt (2 * Real.pi) ≤ gaussInt 5.5 := by
    nlinarith
  have hdiv : (1 / 2 - 1e-6 : ℝ) ≤ gaussInt 5.5 / Real.sqrt (2 * Real.pi) := by
    rw [le_div_iff hs]
    exact hG
  linarith

lemma cdfStd_le_neg_tail : cdfStd (-5.5) ≤ 1e-6 := by
  rw [cdfStd_neg]
  linarith [cdfStd_ge_tail]

lemma bisectAux_spec (t : ℝ) : ∀ (k : ℕ) (lo hi : ℝ), lo < hi →
    lo ≤ (bisectAux t k lo hi).1 ∧ (bisectAux t k lo hi).2 ≤ hi ∧
    (bisectAux t k lo hi).1 < (bisectAux t k lo hi).2 ∧
    (bisectAux t k lo hi).2 - (bisectAux t k lo hi).1 = (hi - lo) / 2 ^ k ∧
    (cdfStd (bisectAux t k lo hi).1 < t ∨ (bisectAux t k lo hi).1 = lo) ∧
    (t ≤ cdfStd (bisectAux t k lo hi).2 ∨ (bisectAux t k lo hi).2 = hi) ∧
    (∀ z, lo ≤ z → z ≤ hi → cdfStd z < t → z ≤ (bisectAux t k lo hi).2) ∧
    (∀ z, lo ≤ z → z ≤ hi → t ≤ cdfStd z → (bisectAux t k lo hi).1 ≤ z) := by
  intro k
  induction k with
  | zero =>
    intro lo hi h
    refine ⟨le_rfl, le_rfl, h, by simp [bisectAux], Or.inr rfl, Or.inr rfl, ?_, ?_⟩
    · intro z _ hz _
      exact hz
    · intro z hz _ _
      exact hz
  | succ k ih =>
    intro lo hi h
    have hm1 : lo < (lo + hi) / 2 := by linarith
    have hm2 : (lo + hi) / 2 < hi := by linarith
    by_cases hc : cdfStd ((lo + hi) / 2) < t
    · obtain ⟨i1, i2, i3, i4, i5, i6, iA, iB⟩ := ih ((lo + hi) / 2) hi hm2
      simp only [bisectAux, if_pos hc]
      refine ⟨by linarith, i2, i3, by rw [i4]; ring, ?_, i6, ?_, ?_⟩
      · rcases i5 with h5 | h5
        · exact Or.inl h5
        · exact Or.inl (by rw [h5]; exact hc)
      · intro z hz1 hz2 hz3
        rcases le_or_lt z ((lo + hi) / 2) with hzm | hzm
        · exact le_trans hzm (le_trans i1 i3.le)
        · exact iA z hzm.le hz2 hz3
      · intro z hz1 hz2 hz3
        rcases le_or_lt ((lo + hi) / 2) z with hzm | hzm
        · exact iB z hzm hz2 hz3
        · exact absurd hz3 (not_le.mpr (lt_of_le_of_lt (cdfStd_mono hzm.le) hc))
    · have hc' : t ≤ cdfStd ((lo + hi) / 2) := not_lt.mp hc
      obtain ⟨i1, i2, i3, i4, i5, i6, iA, iB⟩ := ih lo ((lo + hi) / 2) hm1
      simp only [bisectAux, if_neg hc]
      refine ⟨i1, by linarith, i3, by rw [i4]; ring, i5, ?_, ?_, ?_⟩
      · rcases i6 with h6 | h6
        · exact Or.inl h6
        · exact Or.inl (by rw [h6]; exact hc')
      · intro z hz1 hz2 hz3
        rcases le_or_lt z ((lo + hi) / 2) with hzm | hzm
        · exact iA z hz1 hzm hz3
        · exact absurd hz3 (not_lt.mpr (le_trans hc' (cdfStd_mono hzm.le)))
      · intro z hz1 hz2 hz3
        rcases le_or_lt z ((lo + hi) / 2) with hzm | hzm
        · exact iB z hz1 hzm hz3
        · exact le_trans (le_trans i3.le i2) hzm.le

lemma quantile_close (t : ℝ) (h0 : 0 < t) (h1 : t < 1) :
    |cdfStd (quantileSolve t) - t| ≤ 1e-6 := by
  obtain ⟨i1, i2, i3, i4, i5, i6, _, _⟩ :=
    bisectAux_spec t 100 (-10) 10 (by norm_num)
  set L := (bisectAux t 100 (-10) 10).1 with hL
  set H := (bisectAux t 100 (-10) 10).2 with hH
  have hm : quantileSolve t = (L + H) / 2 := rfl
  have hgap : H - L = 20 / 2 ^ 100 := by
    rw [i4]
    norm_num
  have hgapsmall : H - L ≤ 1e-6 := by
    rw [hgap]
    norm_num
  have hLm : L ≤ (L + H) / 2 := by linarith [i3]
  have hmH : (L + H) / 2 ≤ H := by linarith [i3]
  have hΦL : cdfStd L ≤ cdfStd ((L + H) / 2) := cdfStd_mono hLm
  have hΦH : cdfStd ((L + H) / 2) ≤ cdfStd H := cdfStd_mono hmH
  have hlip : cdfStd H - cdfStd L ≤ H - L := cdfStd_sub_le (by linarith [i3])
  rw [hm, abs_le]
  rcases i5 with h5 | h5
  · rcases i6 with h6 | h6
    · constructor <;> linarith
    · have hL5 : (5.5:ℝ) ≤ L := by
        rw [h6] at hgap
        have : (20:ℝ) / 2 ^ 100 ≤ 4.5 := by norm_num
        linarith
      have hΦ5L : cdfStd 5.5 ≤ cdfStd L := cdfStd_mono hL5
      have h5' := cdfStd_ge_tail
      have hup : cdfStd ((L + H) / 2) ≤ 1 := cdfStd_le_one _
      constructor <;> linarith
  · have hHval : H = -10 + 20 / 2 ^ 100 := by
      rw [h5] at hgap
      linarith
    have hH5 : H ≤ -5.5 := by
      rw [hHval]
      norm_num
    have h6' : t ≤ cdfStd H := by
      rcases i6 with h6 | h6
      · exact h6
      · rw [h6] at hHval
        norm_num at hHval
    have hΦH5 : cdfStd H ≤ cdfStd (-5.5) := cdfStd_mono hH5
    have hc5 := cdfStd_le_neg_tail
    have hpos : 0 < cdfStd ((L + H) / 2) := cdfStd_pos _
    constructor <;> linarith

/-- C3: for every target probability in `(0,1)` the value returned by the
bisection solver maps back through `cdfStd` to within `1e-6` of the target,
for both `z_from_power` (target `power`) and `z_from_alpha`
(target `1 - alpha/2`). -/
theorem round_trip_accuracy :
    (∀ p : ℝ, 0 < p → p < 1 → |cdfStd (z_from_power p) - p| ≤ 1e-6) ∧
    (∀ a : ℝ, 0 < a → a < 1 → |cdfStd (z_from_alpha a) - (1 - a / 2)| ≤ 1e-6) := by
  constructor
  · intro p h0 h1
    exact quantile_close p h0 h1
  · intro a h0 h1
    exact quantile_close (1 - a / 2) (by linarith) (by linarith)

/-- C3 (witness): round-trip accuracy at `power = 1/2` and `alpha = 1/20`. -/
theorem round_trip_accuracy_witness :
    |cdfStd (z_from_power (1/2)) - 1/2| ≤ 1e-6 ∧
    |cdfStd (z_from_alpha (1/20)) - (1 - (1/20) / 2)| ≤ 1e-6 :=
  ⟨round_trip_accuracy.1 (1/2) (by norm_num) (by norm_num),
   round_trip_accuracy.2 (1/20) (by norm_num) (by norm_num)⟩

lemma bisectAux_of_nonpos {t : ℝ} (ht : t ≤ 0) :
    ∀ (k : ℕ) (lo hi : ℝ), bisectAux t k lo hi = (lo, lo + (hi - lo) / 2 ^ k) := by
  intro k
  induction k with
  | zero =>
    intro lo hi
    simp [bisectAux]
  | succ k ih =>
    intro lo hi
    have hnc : ¬ cdfStd ((lo + hi) / 2) < t :=
      not_lt.mpr (le_trans ht (cdfStd_pos _).le)
    rw [show bisectAux t (k + 1) lo hi =
        if cdfStd ((lo + hi) / 2) < t then bisectAux t k ((lo + hi) / 2) hi
        else bisectAux t k lo ((lo + hi) / 2) from rfl, if_neg hnc, ih]
    simp only [Prod.mk.injEq]
    exact ⟨trivial, by ring⟩

lemma bisectAux_of_ge_one {t : ℝ} (ht : 1 ≤ t) :
    ∀ (k : ℕ) (lo hi : ℝ), bisectAux t k lo hi = (hi - (hi - lo) / 2 ^ k, hi) := by
  intro k
  induction k with
  | zero =>
    intro lo hi
    simp [bisectAux]
  | succ k ih =>
    intro lo hi
    have hc : cdfStd ((lo + hi) / 2) < t := lt_of_lt_of_le (cdfStd_lt_one _) ht
    rw [show bisectAux t (k + 1) lo hi =
        if cdfStd ((lo + hi) / 2) < t then bisectAux t k ((lo + hi) / 2) hi
        else bisectAux t k lo ((lo + hi) / 2) from rfl, if_pos hc, ih]
    simp only [Prod.mk.injEq]
    exact ⟨by ring, trivial⟩

/-- C8 (amended): the quantile component performs no validation: handed a
target at or outside the valid range it still runs the bisection, whose
bracket saturates near an endpoint of `[-10, 10]`, and it returns that
saturated value instead of failing.  (For `alpha ∈ [1, 2)` the derived
target `1 - alpha/2` lies back inside `(0, 1/2]` and the bisection runs
normally.) -/
theorem quantile_saturates :
    (∀ p : ℝ, p ≤ 0 → z_from_power p = -10 + 10 / 2 ^ 100) ∧
    (∀ p : ℝ, 1 ≤ p → z_from_power p = 10 - 10 / 2 ^ 100) ∧
    (∀ a : ℝ, a ≤ 0 → z_from_alpha a = 10 - 10 / 2 ^ 100) ∧
    (∀ a : ℝ, 2 ≤ a → z_from_alpha a = -10 + 10 / 2 ^ 100) := by
  refine ⟨?_, ?_, ?_, ?_⟩
  · intro p hp
    unfold z_from_power quantileSolve
    rw [bisectAux_of_nonpos hp 100 (-10) 10]
    ring
  · intro p hp
    unfold z_from_power quantileSolve
    rw [bisectAux_of_ge_one hp 100 (-10) 10]
    ring
  · intro a ha
    unfold z_from_alpha quantileSolve
    rw [bisectAux_of_ge_one (by linarith) 100 (-10) 10]
    ring
  · intro a ha
    unfold z_from_alpha quantileSolve
    rw [bisectAux_of_nonpos (by linarith) 100 (-10) 10]
    ring

/-- C8 (counterexample): at the out-of-range target `power = 0` the solver
does not fail with any `InvalidArgument` condition: it executes the
bisection and returns the saturated bracket value `-10 + 10/2^100`. -/
theorem quantile_no_failure_at_zero : z_from_power 0 = -10 + 10 / 2 ^ 100 := by
  unfold z_from_power quantileSolve
  rw [bisectAux_of_nonpos le_rfl 100 (-10) 10]
  ring

/-- C8 (witness for the amended statement). -/
theorem quantile_saturates_witness :
    z_from_power (-1) = -10 + 10 / 2 ^ 100 ∧
    z_from_power 2 = 10 - 10 / 2 ^ 100 ∧
    z_from_alpha (-1) = 10 - 10 / 2 ^ 100 ∧
    z_from_alpha 3 = -10 + 10 / 2 ^ 100 :=
  ⟨quantile_saturates.1 (-1) (by norm_num),
   quantile_saturates.2.1 2 (by norm_num),
   quantile_saturates.2.2.1 (-1) (by norm_num),
   quantile_saturates.2.2.2 3 (by norm_num)⟩

lemma quantileSolve_ge {t a : ℝ} (ha1 : (-10:ℝ) ≤ a) (ha2 : a ≤ 10)
    (h : cdfStd a < t) : a - 10 / 2 ^ 100 ≤ quantileSolve t := by
  obtain ⟨i1, i2, i3, i4, _, _, iA, _⟩ :=
    bisectAux_spec t 100 (-10) 10 (by norm_num)
  have hA := iA a ha1 ha2 h
  have hgap : (bisectAux t 100 (-10) 10).2 - (bisectAux t 100 (-10) 10).1 =
      2 * (10 / 2 ^ 100) := by
    rw [i4]
    norm_num
  show a - 10 / 2 ^ 100 ≤
    ((bisectAux t 100 (-10) 10).1 + (bisectAux t 100 (-10) 10).2) / 2
  linarith

lemma quantileSolve_le {t b : ℝ} (hb1 : (-10:ℝ) ≤ b) (hb2 : b ≤ 10)
    (h : t ≤ cdfStd b) : quantileSolve t ≤ b + 10 / 2 ^ 100 := by
  obtain ⟨i1, i2, i3, i4, _, _, _, iB⟩ :=
    bisectAux_spec t 100 (-10) 10 (by norm_num)
  have hB := iB b hb1 hb2 h
  have hgap : (bisectAux t 100 (-10) 10).2 - (bisectAux t 100 (-10) 10).1 =
      2 * (10 / 2 ^ 100) := by
    rw [i4]
    norm_num
  show ((bisectAux t 100 (-10) 10).1 + (bisectAux t 100 (-10) 10).2) / 2 ≤
    b + 10 / 2 ^ 100
  linarith

lemma z_alpha_lower : (1.959:ℝ) - 10 / 2 ^ 100 ≤ z_from_alpha 0.05 := by
  have h : cdfStd 1.959 < 1 - 0.05 / 2 := by
    have h2 : (1:ℝ) - 0.05 / 2 = 0.975 := by norm_num
    rw [h2]
    exact phi_lt_1959
  unfold z_from_alpha
  exact quantileSolve_ge (by norm_num) (by norm_num) h

lemma z_alpha_upper : z_from_alpha 0.05 ≤ (1.97:ℝ) + 10 / 2 ^ 100 := by
  have h : (1:ℝ) - 0.05 / 2 ≤ cdfStd 1.97 := by
    have h2 : (1:ℝ) - 0.05 / 2 = 0.975 := by norm_num
    rw [h2]
    exact phi_ge_197
  unfold z_from_alpha
  exact quantileSolve_le (by norm_num) (by norm_num) h

lemma z_power_lower : (0.841:ℝ) - 10 / 2 ^ 100 ≤ z_from_power 0.8 := by
  unfold z_from_power
  exact quantileSolve_ge (by norm_num) (by norm_num) phi_lt_0841

lemma z_power_upper : z_from_power 0.8 ≤ (0.85:ℝ) + 10 / 2 ^ 100 := by
  unfold z_from_power
  exact quantileSolve_le (by norm_num) (by norm_num) phi_ge_085

lemma concrete_independent_value : requiredN_independent 0.05 0.8 11.6 2.4 10 = 23 := by
  have hza1 := z_alpha_lower
  have hza2 := z_alpha_upper
  have hzb1 := z_power_lower
  have hzb2 := z_power_upper
  have heps : (10:ℝ) / 2 ^ 100 ≤ 0.00005 := by norm_num
  set s := z_from_alpha 0.05 + z_from_power 0.8 with hs
  have hs1 : (2.7999:ℝ) ≤ s := by
    rw [hs]
    linarith
  have hs2 : s ≤ (2.8201:ℝ) := by
    rw [hs]
    linarith
  have hσ : (Real.sqrt ((11.6:ℝ) ^ 2 + 2.4 ^ 2)) ^ 2 = 140.32 := by
    rw [Real.sq_sqrt (by norm_num)]
    norm_num
  unfold requiredN_independent n_per_group_independent
  rw [← hs, hσ, Int.ceil_eq_iff]
  constructor
  · have hsq1 : (2.7999:ℝ) ^ 2 ≤ s ^ 2 := by nlinarith
    push_cast
    linarith
  · have hsq2 : s ^ 2 ≤ (2.8201:ℝ) ^ 2 := by nlinarith
    push_cast
    linarith

/-- C9 (counterexample): the concrete independent-groups case
`alpha=0.05, power=0.80, sigma_bio=11.6, sigma_inter=2.4, delta=10` does not
return 17: the formula named by the claim itself evaluates to
`ceil(22.03) = 23`. -/
theorem concrete_independent_not_17 :
    requiredN_independent 0.05 0.8 11.6 2.4 10 ≠ 17 := by
  rw [concrete_independent_value]
  decide

/-- C9 (amended): the concrete independent-groups case uses
`sigma_total² = 11.6² + 2.4² = 140.32`, `z_alpha ≈ 1.95996`,
`z_power ≈ 0.84162`, and returns `n = ceil(2·140.32·2.80158²/100) = 23`. -/
theorem concrete_independent_case :
    requiredN_independent 0.05 0.8 11.6 2.4 10 = 23 :=
  concrete_independent_value

/-- C1: on valid inputs the independent-groups calculation returns exactly
`⌈2·(sigma_bio² + sigma_inter²)·(z_alpha + z_power)²/delta²⌉` — that is,
`sigma_total = sqrt(sigma_bio² + sigma_inter²)` enters only through its
square — where `z_alpha` and `z_power` are the solver's standard-normal
quantiles at `1 - alpha/2` and at `power` (each accurate to `1e-6` in CDF
value). -/
theorem independent_formula (alpha power sb si delta : ℝ)
    (ha0 : 0 < alpha) (ha1 : alpha < 1) (hp0 : 0 < power) (hp1 : power < 1)
    (hsb : 0 ≤ sb) (hsi : 0 ≤ si) (hd : 0 < delta) :
    requiredN_independent alpha power sb si delta =
      ⌈2 * (sb ^ 2 + si ^ 2) * (z_from_alpha alpha + z_from_power power) ^ 2 /
        delta ^ 2⌉ ∧
    |cdfStd (z_from_alpha alpha) - (1 - alpha / 2)| ≤ 1e-6 ∧
    |cdfStd (z_from_power power) - power| ≤ 1e-6 := by
  refine ⟨?_, ?_, ?_⟩
  · unfold requiredN_independent n_per_group_independent
    rw [Real.sq_sqrt (by positivity)]
  · exact quantile_close (1 - alpha / 2) (by linarith) (by linarith)
  · exact quantile_close power hp0 hp1

/-- C1 (witness). -/
theorem independent_formula_witness :
    requiredN_independent 0.05 0.8 11.6 2.4 10 =
      ⌈2 * ((11.6:ℝ) ^ 2 + 2.4 ^ 2) * (z_from_alpha 0.05 + z_from_power 0.8) ^ 2 /
        10 ^ 2⌉ ∧
    |cdfStd (z_from_alpha 0.05) - (1 - 0.05 / 2)| ≤ 1e-6 ∧
    |cdfStd (z_from_power 0.8) - 0.8| ≤ 1e-6 :=
  independent_formula 0.05 0.8 11.6 2.4 10 (by norm_num) (by norm_num) (by norm_num)
    (by norm_num) (by norm_num) (by norm_num) (by norm_num)

/-- C2: on valid inputs the paired calculation returns exactly
`⌈sigma_diff²·(z_alpha + z_power)²/delta²⌉`, with no multiplicative factor
of 2 (the canonical paired formula), where `z_alpha` and `z_power` are the
solver's standard-normal quantiles at `1 - alpha/2` and at `power` (each
accurate to `1e-6` in CDF value). -/
theorem paired_formula (alpha power sd delta : ℝ)
    (ha0 : 0 < alpha) (ha1 : alpha < 1) (hp0 : 0 < power) (hp1 : power < 1)
    (hsd : 0 ≤ sd) (hd : 0 < delta) :
    n_paired alpha power sd delta =
      ⌈sd ^ 2 * (z_from_alpha alpha + z_from_power power) ^ 2 / delta ^ 2⌉ ∧
    |cdfStd (z_from_alpha alpha) - (1 - alpha / 2)| ≤ 1e-6 ∧
    |cdfStd (z_from_power power) - power| ≤ 1e-6 := by
  refine ⟨rfl, ?_, ?_⟩
  · exact quantile_close (1 - alpha / 2) (by linarith) (by linarith)
  · exact quantile_close power hp0 hp1

/-- C2 (witness). -/
theorem paired_formula_witness :
    n_paired 0.05 0.8 5 5 =
      ⌈(5:ℝ) ^ 2 * (z_from_alpha 0.05 + z_from_power 0.8) ^ 2 / 5 ^ 2⌉ ∧
    |cdfStd (z_from_alpha 0.05) - (1 - 0.05 / 2)| ≤ 1e-6 ∧
    |cdfStd (z_from_power 0.8) - 0.8| ≤ 1e-6 :=
  paired_formula 0.05 0.8 5 5 (by norm_num) (by norm_num) (by norm_num)
    (by norm_num) (by norm_num) (by norm_num)

/-- C4: for both designs the required sample size is non-increasing in
`delta` (for fixed alpha, power and variability) and non-decreasing in each
variability component (for fixed alpha, power and delta). -/
theorem monotonicity :
    (∀ alpha power sb si d1 d2 : ℝ, 0 < d1 → d1 ≤ d2 →
      requiredN_independent alpha power sb si d2 ≤
        requiredN_independent alpha power sb si d1) ∧
    (∀ alpha power sd d1 d2 : ℝ, 0 < d1 → d1 ≤ d2 →
      n_paired alpha power sd d2 ≤ n_paired alpha power sd d1) ∧
    (∀ alpha power sb sb2 si delta : ℝ, 0 ≤ sb → sb ≤ sb2 → 0 < delta →
      requiredN_independent alpha power sb si delta ≤
        requiredN_independent alpha power sb2 si delta) ∧
    (∀ alpha power sb si si2 delta : ℝ, 0 ≤ si → si ≤ si2 → 0 < delta →
      requiredN_independent alpha power sb si delta ≤
        requiredN_independent alpha power sb si2 delta) ∧
    (∀ alpha power sd sd2 delta : ℝ, 0 ≤ sd → sd ≤ sd2 → 0 < delta →
      n_paired alpha power sd delta ≤ n_paired alpha power sd2 delta) := by
  refine ⟨?_, ?_, ?_, ?_, ?_⟩
  · intro alpha power sb si d1 d2 hd1 hd12
    unfold requiredN_independent n_per_group_independent
    apply Int.ceil_mono
    have hX : (0:ℝ) ≤ 2 * (Real.sqrt (sb ^ 2 + si ^ 2)) ^ 2 *
        (z_from_alpha alpha + z_from_power power) ^ 2 := by positivity
    have hp1 : (0:ℝ) < d1 ^ 2 := pow_pos hd1 2
    have hp2 : (0:ℝ) < d2 ^ 2 := pow_pos (lt_of_lt_of_le hd1 hd12) 2
    have hle : d1 ^ 2 ≤ d2 ^ 2 := by nlinarith
    rw [div_le_div_iff hp2 hp1]
    nlinarith
  · intro alpha power sd d1 d2 hd1 hd12
    unfold n_paired
    apply Int.ceil_mono
    have hX : (0:ℝ) ≤ sd ^ 2 * (z_from_alpha alpha + z_from_power power) ^ 2 := by
      positivity
    have hp1 : (0:ℝ) < d1 ^ 2 := pow_pos hd1 2
    have hp2 : (0:ℝ) < d2 ^ 2 := pow_pos (lt_of_lt_of_le hd1 hd12) 2
    have hle : d1 ^ 2 ≤ d2 ^ 2 := by nlinarith
    rw [div_le_div_iff hp2 hp1]
    nlinarith
  · intro alpha power sb sb2 si delta hsb hsb2 hd
    unfold requiredN_independent n_per_group_independent
    apply Int.ceil_mono
    rw [Real.sq_sqrt (by positivity), Real.sq_sqrt (by positivity)]
    have hp : (0:ℝ) < delta ^ 2 := pow_pos hd 2
    have hK : (0:ℝ) ≤ (z_from_alpha alpha + z_from_power power) ^ 2 := sq_nonneg _
    have hle : sb ^ 2 ≤ sb2 ^ 2 := by nlinarith
    apply div_le_div_of_nonneg_right ?_ hp.le
    nlinarith
  · intro alpha power sb si si2 delta hsi hsi2 hd
    unfold requiredN_independent n_per_group_independent
    apply Int.ceil_mono
    rw [Real.sq_sqrt (by positivity), Real.sq_sqrt (by positivity)]
    have hp : (0:ℝ) < delta ^ 2 := pow_pos hd 2
    have hK : (0:ℝ) ≤ (z_from_alpha alpha + z_from_power power) ^ 2 := sq_nonneg _
    have hle : si ^ 2 ≤ si2 ^ 2 := by nlinarith
    apply div_le_div_of_nonneg_right ?_ hp.le
    nlinarith
  · intro alpha power sd sd2 delta hsd hsd2 hd
    unfold n_paired
    apply Int.ceil_mono
    have hp : (0:ℝ) < delta ^ 2 := pow_pos hd 2
    have hK : (0:ℝ) ≤ (z_from_alpha alpha + z_from_power power) ^ 2 := sq_nonneg _
    have hle : sd ^ 2 ≤ sd2 ^ 2 := by nlinarith
    apply div_le_div_of_nonneg_right ?_ hp.le
    nlinarith

/-- C4 (witness): monotonicity at concrete inputs. -/
theorem monotonicity_witness :
    requiredN_independent 0.05 0.8 11.6 2.4 20 ≤
      requiredN_independent 0.05 0.8 11.6 2.4 10 ∧
    n_paired 0.05 0.8 5 10 ≤ n_paired 0.05 0.8 5 5 ∧
    requiredN_independent 0.05 0.8 11.6 2.4 10 ≤
      requiredN_independent 0.05 0.8 12 2.4 10 ∧
    requiredN_independent 0.05 0.8 11.6 2.4 10 ≤
      requiredN_independent 0.05 0.8 11.6 3 10 ∧
    n_paired 0.05 0.8 5 5 ≤ n_paired 0.05 0.8 6 5 :=
  ⟨monotonicity.1 0.05 0.8 11.6 2.4 10 20 (by norm_num) (by norm_num),
   monotonicity.2.1 0.05 0.8 5 5 10 (by norm_num) (by norm_num),
   monotonicity.2.2.1 0.05 0.8 11.6 12 2.4 10 (by norm_num) (by norm_num) (by norm_num),
   monotonicity.2.2.2.1 0.05 0.8 11.6 2.4 3 10 (by norm_num) (by norm_num) (by norm_num),
   monotonicity.2.2.2.2 0.05 0.8 5 6 5 (by norm_num) (by norm_num) (by norm_num)⟩
